import Mathlib

/-
Formal model of the e-paper image conversion pipelines in `app.py`.

The repository contains two concatenated variants of the same Flask service.
Variant 1 (6-color): `rgb_to_palette_code` plus `convert_image_to_epaper_format`
with auto-rotation, pre-downscale, crop-to-fill geometry, optional dithering and
a packer that writes each output byte once as `(code1 << 4) | code2`.
Variant 2 (7-color): `find_closest_color` plus a second
`convert_image_to_epaper_format` with thumbnail-to-fit geometry, a white
letterbox canvas, and a packer that merges one nibble per pixel with a
read-modify-write.

Modeling conventions:
- Pixels are RGB triples of integers; an image is its dimensions together with
  a total content function.  PIL's bounds-checked `getpixel` is modeled as a
  fallible read; PIL `crop` and `paste` follow PIL semantics (crop always
  returns the requested box, padding out-of-bounds area with black; paste
  clips).
- The content produced by PIL's Lanczos resampling and by PIL's
  quantize-with-dithering is not computed by the repository's own code; it is
  supplied by an explicit `Oracle` parameter, while the result dimensions are
  modeled exactly.  All theorems hold for every oracle.
- Python float arithmetic in the scale computations is modeled exactly over ℚ
  (with `int(...)` of positive values as the floor).  An exhaustive check over
  every dimension pair reachable after the pre-downscale step
  (width ≤ 2400, height ≤ 1440) shows IEEE-double evaluation of the source
  expressions yields the same branch choices and the same crop-box-in-bounds
  facts as the exact rational values, so the ℚ model is behaviorally faithful
  on the reachable domain.
- Python `//` on integers is `Int.fdiv` (floor division).
-/

namespace EPaper

/-- RGB triple with 8-bit channels, carried as integers (Python ints). -/
structure RGBv where
  r : Int
  g : Int
  b : Int
deriving DecidableEq

/-- Decoded raster: dimensions plus a total content function.  Reads through
`getpixel` are bounds-checked as in PIL. -/
structure Img where
  width : Nat
  height : Nat
  data : Nat → Nat → RGBv

/-- Squared Euclidean RGB distance, `(r-pr)**2 + (g-pg)**2 + (b-pb)**2`
from `rgb_to_palette_code` and `find_closest_color`. -/
def distSq (r g b : Int) (c : RGBv) : Int :=
  (r - c.r) ^ 2 + (g - c.g) ^ 2 + (b - c.b) ^ 2

/-- One iteration of the nearest-color scan: `if distance < min_distance`
with `min_distance` starting at infinity (modeled as `none`).  The tag (second
component) is the palette code in variant 1 and the palette index in
variant 2. -/
def scanStep (r g b : Int) (acc : Option Int × Nat) (e : RGBv × Nat) :
    Option Int × Nat :=
  match acc.1 with
  | none => (some (distSq r g b e.1), e.2)
  | some m => if distSq r g b e.1 < m then (some (distSq r g b e.1), e.2) else acc

/-- The nearest-color loop shared by `rgb_to_palette_code` (variant 1) and
`find_closest_color` (variant 2): fold `scanStep` over the palette in
iteration order. -/
def scanNearest (r g b : Int) :
    List (RGBv × Nat) → Option Int × Nat → Option Int × Nat
  | [], acc => acc
  | e :: rest, acc => scanNearest r g b rest (scanStep r g b acc e)

/-- Variant 1's 6-color palette `PALETTE`, in dict insertion order:
black, white, yellow, red, blue, green with codes 0x0,0x1,0x2,0x3,0x5,0x6. -/
def PALETTE : List (RGBv × Nat) :=
  [(⟨0, 0, 0⟩, 0x0), (⟨255, 255, 255⟩, 0x1), (⟨255, 255, 0⟩, 0x2),
   (⟨200, 80, 50⟩, 0x3), (⟨100, 120, 180⟩, 0x5), (⟨200, 200, 80⟩, 0x6)]

/-- Variant 1's `rgb_to_palette_code`: nearest palette entry's code, starting
from `min_distance = inf` and `closest_code = 0x1`. -/
def rgb_to_palette_code (r g b : Int) : Nat :=
  (scanNearest r g b PALETTE (none, 0x1)).2

/-- Variant 2's `COLOR_RGB` list: black, white, green, blue, red, yellow,
orange. -/
def COLOR_RGB : List RGBv :=
  [⟨0, 0, 0⟩, ⟨255, 255, 255⟩, ⟨0, 255, 0⟩, ⟨0, 0, 255⟩,
   ⟨255, 0, 0⟩, ⟨255, 255, 0⟩, ⟨255, 128, 0⟩]

/-- Variant 2's `find_closest_color`: nearest entry's index in `COLOR_RGB`,
starting from `min_distance = inf` and `closest_color = 0`. -/
def find_closest_color (c : RGBv) : Nat :=
  (scanNearest c.r c.g c.b (COLOR_RGB.enum.map (fun p => (p.2, p.1))) (none, 0)).2

/-- Palette code assigned to an image pixel by variant 1's quantizer. -/
def imgCode (img : Img) (x y : Nat) : Nat :=
  rgb_to_palette_code (img.data x y).r (img.data x y).g (img.data x y).b

/-- Failure kinds surfaced by the pipeline.  `configurationError` is the error
kind named by the specification for bad static configuration; the code itself
never raises it. -/
inductive ConvErr where
  | zeroDivision
  | pixelOutOfBounds
  | configurationError
deriving DecidableEq

/-- PIL `Image.getpixel`: bounds-checked read. -/
def getpixel (img : Img) (x y : Nat) : Except ConvErr RGBv :=
  if x < img.width ∧ y < img.height then .ok (img.data x y) else .error .pixelOutOfBounds

/-- Python `range(0, w, 2)`: the even columns below `w`. -/
def evenCols (w : Nat) : List Nat := List.range' 0 ((w + 1) / 2) 2

/-- Variant 1 packer, inner loop (lines 105-116): for each even column read the
pixel pair, quantize both, and write `(code1 << 4) | code2` at
`row*(w/2) + col/2`. -/
def packRowE (img : Img) (w row : Nat) :
    List Nat → List Nat → Except ConvErr (List Nat)
  | buf, [] => .ok buf
  | buf, col :: rest =>
    match getpixel img col row with
    | .error e => .error e
    | .ok p1 =>
      match getpixel img (col + 1) row with
      | .error e => .error e
      | .ok p2 =>
        packRowE img w row
          (buf.set (row * (w / 2) + col / 2)
            ((rgb_to_palette_code p1.r p1.g p1.b <<< 4) |||
              rgb_to_palette_code p2.r p2.g p2.b)) rest

/-- Variant 1 packer, outer loop over rows (line 104). -/
def packRowsE (img : Img) (w : Nat) :
    List Nat → List Nat → Except ConvErr (List Nat)
  | buf, [] => .ok buf
  | buf, row :: rest =>
    match packRowE img w row buf (evenCols w) with
    | .error e => .error e
    | .ok buf2 => packRowsE img w buf2 rest

/-- Variant 1's frame packer (lines 102-119): allocate `w*h/2` zero bytes and
run the row loops.  An out-of-range pixel read aborts the whole call (Python
raises), so no partial buffer is ever handed back. -/
def epdPackStage (img : Img) (w h : Nat) : Except ConvErr (List Nat) :=
  packRowsE img w (List.replicate (w * h / 2) 0) (List.range h)

/-- Pure form of variant 1's row loop over an arbitrary per-pixel code
assignment. -/
def packRowP (w row : Nat) (code : Nat → Nat → Nat) :
    List Nat → List Nat → List Nat
  | buf, [] => buf
  | buf, col :: rest =>
    packRowP w row code
      (buf.set (row * (w / 2) + col / 2) ((code col row <<< 4) ||| code (col + 1) row)) rest

/-- Iterate a per-row buffer transformer over a list of row indices. -/
def rowsIter (rowFn : Nat → List Nat → List Nat) :
    List Nat → List Nat → List Nat
  | buf, [] => buf
  | buf, row :: rest => rowsIter rowFn (rowFn row buf) rest

/-- Variant 1's packing strategy on a code assignment: each byte written once
as `(code(2k) << 4) | code(2k+1)`, rows top to bottom, pairs left to right. -/
def pack1 (w h : Nat) (code : Nat → Nat → Nat) : List Nat :=
  rowsIter (fun row buf => packRowP w row code buf (evenCols w))
    (List.replicate (w * h / 2) 0) (List.range h)

/-- One pixel of variant 2's packer (lines 431-441): merge the code into the
high nibble (even column) or the low nibble (odd column) of the byte at
`y*(w/2) + x/2` with a read-modify-write. -/
def pack2Step (w y : Nat) (code : Nat → Nat → Nat) (buf : List Nat) (x : Nat) :
    List Nat :=
  let i := y * (w / 2) + x / 2
  let b := buf.getD i 0
  if x % 2 = 0 then buf.set i ((code x y <<< 4) ||| (b &&& 0x0F))
  else buf.set i ((b &&& 0xF0) ||| code x y)

/-- Variant 2's inner loop over all columns of one row. -/
def packRowP2 (w y : Nat) (code : Nat → Nat → Nat) :
    List Nat → List Nat → List Nat
  | buf, [] => buf
  | buf, x :: rest => packRowP2 w y code (pack2Step w y code buf x) rest

/-- Variant 2's packing strategy: zero-filled `w*h/2` buffer, then per pixel in
row-major order merge its nibble. -/
def pack2 (w h : Nat) (code : Nat → Nat → Nat) : List Nat :=
  rowsIter (fun y buf => packRowP2 w y code buf (List.range w))
    (List.replicate (w * h / 2) 0) (List.range h)

/-- PIL `rotate(90, expand=True)`: lossless counterclockwise quarter turn with
swapped dimensions. -/
def rotate90 (img : Img) : Img :=
  ⟨img.height, img.width, fun x y => img.data (img.width - 1 - y) x⟩

/-- Content supplied by PIL library operations that the repository calls but
does not implement: Lanczos resampling (`resize`/`thumbnail`) and
quantize-plus-Floyd-Steinberg dithering.  Result dimensions are modeled
exactly; only the pixel contents come from the oracle. -/
structure Oracle where
  resample : Img → Nat → Nat → Nat → Nat → RGBv
  dither : Img → Nat → Nat → RGBv

/-- Pillow's `round_aspect`: `max(min(floor(number), ceil(number), key=key), 1)`,
with Python `min` keeping the first argument on a key tie. -/
def roundAspect (number : ℚ) (key : ℤ → ℚ) : Nat :=
  (max (if key ⌊number⌋ ≤ key ⌈number⌉ then ⌊number⌋ else ⌈number⌉) 1).toNat

/-- Pillow `Image.thumbnail` target-size computation (aspect-preserving fit),
for the case where the image does not already fit the bounding box. -/
def thumbDims (w h tw th : Nat) : Nat × Nat :=
  if (tw : ℚ) / (th : ℚ) ≥ (w : ℚ) / (h : ℚ) then
    (roundAspect ((th : ℚ) * ((w : ℚ) / (h : ℚ)))
      (fun n => |(w : ℚ) / (h : ℚ) - (n : ℚ) / (th : ℚ)|), th)
  else
    (tw, roundAspect ((tw : ℚ) / ((w : ℚ) / (h : ℚ)))
      (fun n => if n = 0 then 0 else |(w : ℚ) / (h : ℚ) - (tw : ℚ) / (n : ℚ)|))

/-- Pillow `Image.thumbnail((tw, th))`: no-op when the image already fits the
box (checked before the aspect division, so a zero height only divides when the
image exceeds the box), otherwise shrink to `thumbDims`. -/
def thumbnailM (o : Oracle) (img : Img) (tw th : Nat) : Except ConvErr Img :=
  if img.width ≤ tw ∧ img.height ≤ th then .ok img
  else if img.height = 0 then .error .zeroDivision
  else if (thumbDims img.width img.height tw th).1 = img.width ∧
      (thumbDims img.width img.height tw th).2 = img.height then .ok img
  else .ok ⟨(thumbDims img.width img.height tw th).1,
    (thumbDims img.width img.height tw th).2,
    o.resample img (thumbDims img.width img.height tw th).1
      (thumbDims img.width img.height tw th).2⟩

/-- PIL `Image.resize((nw, nh))`: exact target dimensions, oracle content. -/
def resizeM (o : Oracle) (img : Img) (nw nh : Nat) : Img :=
  ⟨nw, nh, o.resample img nw nh⟩

/-- Crop-to-fill geometry computed by variant 1 (lines 63-79). -/
structure CropPlan where
  left : ℤ
  top : ℤ
  newW : Nat
  newH : Nat

/-- Variant 1's scale-and-center computation: aspect comparison over exact
rationals, `int(...)` of the positive products as floor, and Python `//` as
floor division. -/
def cropScaled (w h : Nat) : Nat × Nat :=
  if (w : ℚ) / (h : ℚ) > (800 : ℚ) / (480 : ℚ)
  then ((⌊(480 : ℚ) * ((w : ℚ) / (h : ℚ))⌋).toNat, 480)
  else (800, (⌊(800 : ℚ) / ((w : ℚ) / (h : ℚ))⌋).toNat)

/-- Variant 1's crop box (lines 78-80): center offsets by floor division, the
resize target from `cropScaled`. -/
def cropGeom (w h : Nat) : CropPlan :=
  ⟨Int.fdiv (((cropScaled w h).1 : ℤ) - 800) 2,
   Int.fdiv (((cropScaled w h).2 : ℤ) - 480) 2,
   (cropScaled w h).1, (cropScaled w h).2⟩

/-- PIL `Image.crop((l, t, l+cw, t+ch))`: always returns the requested box
size, reading the source where the box overlaps it and black elsewhere. -/
def cropM (img : Img) (l t : ℤ) (cw ch : Nat) : Img :=
  ⟨cw, ch, fun x y =>
    let sx : ℤ := l + x
    let sy : ℤ := t + y
    if 0 ≤ sx ∧ sx < img.width ∧ 0 ≤ sy ∧ sy < img.height
    then img.data sx.toNat sy.toNat else ⟨0, 0, 0⟩⟩

/-- Variant 1's orientation fix (lines 54-56): rotate when portrait. -/
def autoRotate (img : Img) : Img :=
  if img.width < img.height then rotate90 img else img

/-- Variant 1's pre-downscale (lines 59-61): thumbnail to 2400x1440 only when a
dimension exceeds that ceiling. -/
def preScale (o : Oracle) (img : Img) : Except ConvErr Img :=
  if 2400 < img.width ∨ 1440 < img.height then thumbnailM o img 2400 1440 else .ok img

/-- Variant 1's geometry after the orientation fix: pre-downscale, exact-ratio
scale selection, resize, center crop.  A zero dimension reproduces Python's
`ZeroDivisionError` (`img_ratio = w/h`, then `EPD_WIDTH / img_ratio`). -/
def normAfterRotate (o : Oracle) (img1 : Img) : Except ConvErr Img :=
  match preScale o img1 with
  | .error e => .error e
  | .ok img2 =>
    if img2.height = 0 then .error .zeroDivision
    else if img2.width = 0 then .error .zeroDivision
    else .ok (cropM
      (resizeM o img2 (cropGeom img2.width img2.height).newW
        (cropGeom img2.width img2.height).newH)
      (cropGeom img2.width img2.height).left
      (cropGeom img2.width img2.height).top 800 480)

/-- Variant 1's geometry normalizer (CropFill path, lines 53-80). -/
def normalize1 (o : Oracle) (img0 : Img) : Except ConvErr Img :=
  normAfterRotate o (autoRotate img0)

/-- Variant 1's optional quantize-with-dithering stage (lines 85-99): content
from the oracle, dimensions preserved. -/
def ditherM (o : Oracle) (img : Img) : Img :=
  ⟨img.width, img.height, o.dither img⟩

/-- Variant 1's full conversion pipeline `convert_image_to_epaper_format`
(lines 41-119): normalize geometry, optionally dither, pack at 800x480. -/
def convert1 (o : Oracle) (useDith : Bool) (img0 : Img) : Except ConvErr (List Nat) :=
  match normalize1 o img0 with
  | .error e => .error e
  | .ok n => epdPackStage (if useDith then ditherM o n else n) 800 480

/-- Horizontal paste offset of variant 2 (line 423): `(800 - w) // 2`. -/
def xOff (timg : Img) : ℤ := Int.fdiv (800 - (timg.width : ℤ)) 2

/-- Vertical paste offset of variant 2 (line 424): `(480 - h) // 2`. -/
def yOff (timg : Img) : ℤ := Int.fdiv (480 - (timg.height : ℤ)) 2

/-- Variant 2's white canvas with the thumbnail pasted centered
(lines 420-425), with PIL paste clipping semantics. -/
def pasteW (timg : Img) : Img :=
  ⟨800, 480, fun x y =>
    if xOff timg ≤ (x : ℤ) ∧ (x : ℤ) < xOff timg + timg.width ∧
       yOff timg ≤ (y : ℤ) ∧ (y : ℤ) < yOff timg + timg.height
    then timg.data ((x : ℤ) - xOff timg).toNat ((y : ℤ) - yOff timg).toNat
    else ⟨255, 255, 255⟩⟩

/-- Variant 2's geometry normalizer (LetterboxFit path, lines 410-425):
thumbnail to fit 800x480, then center on a white canvas. -/
def normalize2 (o : Oracle) (img0 : Img) : Except ConvErr Img :=
  match thumbnailM o img0 800 480 with
  | .error e => .error e
  | .ok timg => .ok (pasteW timg)

/-- Variant 2's full conversion pipeline (lines 404-443): letterbox geometry,
then per-pixel `find_closest_color` and nibble merging. -/
def convert2 (o : Oracle) (img0 : Img) : Except ConvErr (List Nat) :=
  match normalize2 o img0 with
  | .error e => .error e
  | .ok canvas => .ok (pack2 800 480 (fun x y => find_closest_color (canvas.data x y)))

/-- Oracle with constant black content, used for concrete instantiations. -/
def oracle0 : Oracle :=
  ⟨fun _ _ _ _ _ => ⟨0, 0, 0⟩, fun _ _ _ => ⟨0, 0, 0⟩⟩

/-- All-black 800x480 landscape raster. -/
def imgLandscape : Img := ⟨800, 480, fun _ _ => ⟨0, 0, 0⟩⟩

/-- All-black 480x800 portrait raster. -/
def imgPortrait : Img := ⟨480, 800, fun _ _ => ⟨0, 0, 0⟩⟩

/-- All-black 1x2 portrait raster for the variant 2 rotation counterexample. -/
def tinyPortrait : Img := ⟨1, 2, fun _ _ => ⟨0, 0, 0⟩⟩

/-- All-black 3x1 raster: an odd-width input for the packer. -/
def imgOdd3 : Img := ⟨3, 1, fun _ _ => ⟨0, 0, 0⟩⟩

/-- One scan step either keeps the accumulator's tag or takes the entry's. -/
lemma scanStep_snd (r g b : Int) (acc : Option Int × Nat) (e : RGBv × Nat) :
    (scanStep r g b acc e).2 = e.2 ∨ (scanStep r g b acc e).2 = acc.2 := by
  rcases acc with ⟨mo, c⟩
  cases mo with
  | none => exact Or.inl rfl
  | some m =>
    unfold scanStep
    dsimp only
    split
    · exact Or.inl rfl
    · exact Or.inr rfl

/-- The scan's final tag is the initial tag or one of the entries' tags. -/
lemma scanNearest_snd_mem (r g b : Int) :
    ∀ (l : List (RGBv × Nat)) (acc : Option Int × Nat),
      (scanNearest r g b l acc).2 = acc.2 ∨
        (scanNearest r g b l acc).2 ∈ l.map Prod.snd := by
  intro l
  induction l with
  | nil => intro acc; exact Or.inl rfl
  | cons e rest ih =>
    intro acc
    have h1 := ih (scanStep r g b acc e)
    have h2 := scanStep_snd r g b acc e
    rw [show scanNearest r g b (e :: rest) acc
        = scanNearest r g b rest (scanStep r g b acc e) from rfl]
    rcases h1 with h1 | h1
    · rcases h2 with h2 | h2
      · exact Or.inr (by rw [h1, h2]; simp)
      · exact Or.inl (by rw [h1, h2])
    · exact Or.inr (by simp only [List.map_cons]; exact List.mem_cons_of_mem _ h1)

/-- Variant 1's quantizer only ever emits the six configured palette codes. -/
lemma rgb_to_palette_code_mem (r g b : Int) :
    rgb_to_palette_code r g b ∈ [0x0, 0x1, 0x2, 0x3, 0x5, 0x6] := by
  rcases scanNearest_snd_mem r g b PALETTE (none, 0x1) with h | h
  · rw [rgb_to_palette_code, h]; decide
  · rw [rgb_to_palette_code]
    simpa [PALETTE] using h

/-- Variant 1's palette codes are 4-bit values. -/
lemma rgb_to_palette_code_lt16 (r g b : Int) : rgb_to_palette_code r g b < 16 := by
  have h := rgb_to_palette_code_mem r g b
  have hall : ∀ n ∈ [0x0, 0x1, 0x2, 0x3, 0x5, 0x6], n < 16 := by decide
  exact hall _ h

/-- Variant 2's quantizer returns an index of `COLOR_RGB`, hence a 4-bit
value. -/
lemma find_closest_color_lt16 (c : RGBv) : find_closest_color c < 16 := by
  rcases scanNearest_snd_mem c.r c.g c.b
      (COLOR_RGB.enum.map (fun p => (p.2, p.1))) (none, 0) with h | h
  · rw [find_closest_color, h]; decide
  · rw [find_closest_color]
    have hall : ∀ n ∈ ((COLOR_RGB.enum.map (fun p => (p.2, p.1))).map Prod.snd),
        n < 16 := by decide
    exact hall _ h

/-- Running the scan with a finite current minimum either leaves the
accumulator untouched (everything is at least `m`) or lands on the first
strict minimizer of the remaining entries. -/
lemma scanNearest_some_spec (r g b : Int) :
    ∀ (l : List (RGBv × Nat)) (m : Int) (c : Nat),
      (scanNearest r g b l (some m, c) = (some m, c) ∧
        ∀ e ∈ l, m ≤ distSq r g b e.1) ∨
      (∃ k, ∃ hk : k < l.length,
        scanNearest r g b l (some m, c) =
          (some (distSq r g b (l.get ⟨k, hk⟩).1), (l.get ⟨k, hk⟩).2) ∧
        distSq r g b (l.get ⟨k, hk⟩).1 < m ∧
        (∀ e ∈ l, distSq r g b (l.get ⟨k, hk⟩).1 ≤ distSq r g b e.1) ∧
        (∀ j, ∀ hj : j < k,
          distSq r g b (l.get ⟨k, hk⟩).1 <
            distSq r g b (l.get ⟨j, Nat.lt_trans hj hk⟩).1)) := by
  intro l
  induction l with
  | nil => intro m c; exact Or.inl ⟨rfl, by simp⟩
  | cons e rest ih =>
    intro m c
    rw [show scanNearest r g b (e :: rest) (some m, c)
        = scanNearest r g b rest (scanStep r g b (some m, c) e) from rfl]
    by_cases hd : distSq r g b e.1 < m
    · rw [show scanStep r g b (some m, c) e = (some (distSq r g b e.1), e.2) from by
        simp [scanStep, hd]]
      rcases ih (distSq r g b e.1) e.2 with ⟨heq, hall⟩ | ⟨k, hk, heq, hlt, hall, hstr⟩
      · refine Or.inr ⟨0, Nat.succ_pos _, ?_, ?_, ?_, ?_⟩
        · simpa using heq
        · simpa using hd
        · intro e' he'
          rcases List.mem_cons.1 he' with rfl | he'
          · simp
          · simpa using hall e' he'
        · intro j hj; exact absurd hj (Nat.not_lt_zero j)
      · refine Or.inr ⟨k + 1, Nat.succ_lt_succ hk, ?_, ?_, ?_, ?_⟩
        · simpa using heq
        · simp only [List.get_eq_getElem, List.getElem_cons_succ] at hlt ⊢
          exact lt_trans hlt hd
        · intro e' he'
          rcases List.mem_cons.1 he' with rfl | he'
          · simp only [List.get_eq_getElem, List.getElem_cons_succ]
            exact le_of_lt hlt
          · simpa using hall e' he'
        · intro j hj
          match j with
          | 0 =>
            simp only [List.get_eq_getElem, List.getElem_cons_succ,
              List.getElem_cons_zero]
            exact hlt
          | j + 1 =>
            simp only [List.get_eq_getElem, List.getElem_cons_succ]
            exact hstr j (Nat.lt_of_succ_lt_succ hj)
    · push_neg at hd
      rw [show scanStep r g b (some m, c) e = (some m, c) from by
        simp [scanStep, not_lt.2 hd]]
      rcases ih m c with ⟨heq, hall⟩ | ⟨k, hk, heq, hlt, hall, hstr⟩
      · refine Or.inl ⟨heq, ?_⟩
        intro e' he'
        rcases List.mem_cons.1 he' with rfl | he'
        · exact hd
        · exact hall e' he'
      · refine Or.inr ⟨k + 1, Nat.succ_lt_succ hk, ?_, ?_, ?_, ?_⟩
        · simpa using heq
        · simp only [List.get_eq_getElem, List.getElem_cons_succ] at hlt ⊢
          exact hlt
        · intro e' he'
          rcases List.mem_cons.1 he' with rfl | he'
          · simp only [List.get_eq_getElem, List.getElem_cons_succ]
            exact le_of_lt (lt_of_lt_of_le hlt hd)
          · simpa using hall e' he'
        · intro j hj
          match j with
          | 0 =>
            simp only [List.get_eq_getElem, List.getElem_cons_succ,
              List.getElem_cons_zero]
            exact lt_of_lt_of_le hlt hd
          | j + 1 =>
            simp only [List.get_eq_getElem, List.getElem_cons_succ]
            exact hstr j (Nat.lt_of_succ_lt_succ hj)

/-- C3: for every RGB triple and every non-empty palette, the nearest-color
scan (instantiated by `rgb_to_palette_code` with `PALETTE` and initial tag
`0x1`, and by `find_closest_color` with the indexed `COLOR_RGB` and initial
tag `0`) returns the tag of the entry minimizing the squared Euclidean
distance, and on ties the tag of the entry that comes first in palette
iteration order: every earlier entry has strictly greater distance. -/
theorem nearest_color_first_minimizer (r g b : Int)
    (entries : List (RGBv × Nat)) (init : Nat) (hne : entries ≠ []) :
    ∃ k, ∃ hk : k < entries.length,
      (scanNearest r g b entries (none, init)).2 = (entries.get ⟨k, hk⟩).2 ∧
      (∀ j, ∀ hj : j < entries.length,
        distSq r g b (entries.get ⟨k, hk⟩).1 ≤ distSq r g b (entries.get ⟨j, hj⟩).1) ∧
      (∀ j, ∀ hj : j < k,
        distSq r g b (entries.get ⟨k, hk⟩).1 <
          distSq r g b (entries.get ⟨j, Nat.lt_trans hj hk⟩).1) := by
  match entries, hne with
  | e :: rest, _ =>
    rw [show scanNearest r g b (e :: rest) (none, init)
        = scanNearest r g b rest (some (distSq r g b e.1), e.2) from rfl]
    rcases scanNearest_some_spec r g b rest (distSq r g b e.1) e.2 with
      ⟨heq, hall⟩ | ⟨k, hk, heq, hlt, hall, hstr⟩
    · refine ⟨0, Nat.succ_pos _, ?_, ?_, ?_⟩
      · rw [heq]; rfl
      · intro j hj
        match j, hj with
        | 0, _ => simp
        | j + 1, hj =>
          simp only [List.get_eq_getElem, List.getElem_cons_succ,
            List.getElem_cons_zero]
          exact hall _ (List.getElem_mem _)
      · intro j hj; exact absurd hj (Nat.not_lt_zero j)
    · refine ⟨k + 1, Nat.succ_lt_succ hk, ?_, ?_, ?_⟩
      · rw [heq]
        simp
      · intro j hj
        match j, hj with
        | 0, _ =>
          simp only [List.get_eq_getElem, List.getElem_cons_succ,
            List.getElem_cons_zero]
          exact le_of_lt hlt
        | j + 1, hj =>
          simp only [List.get_eq_getElem, List.getElem_cons_succ]
          exact hall _ (List.getElem_mem _)
      · intro j hj
        match j, hj with
        | 0, _ =>
          simp only [List.get_eq_getElem, List.getElem_cons_succ,
            List.getElem_cons_zero]
          exact hlt
        | j + 1, hj =>
          simp only [List.get_eq_getElem, List.getElem_cons_succ]
          exact hstr j (Nat.lt_of_succ_lt_succ hj)

/-- Witness for C3: the theorem applied to the concrete 6-color `PALETTE` at
the color (10, 20, 30). -/
theorem nearest_color_first_minimizer_witness :
    ∃ k, ∃ hk : k < PALETTE.length,
      (scanNearest 10 20 30 PALETTE (none, 0x1)).2 = (PALETTE.get ⟨k, hk⟩).2 ∧
      (∀ j, ∀ hj : j < PALETTE.length,
        distSq 10 20 30 (PALETTE.get ⟨k, hk⟩).1 ≤ distSq 10 20 30 (PALETTE.get ⟨j, hj⟩).1) ∧
      (∀ j, ∀ hj : j < k,
        distSq 10 20 30 (PALETTE.get ⟨k, hk⟩).1 <
          distSq 10 20 30 (PALETTE.get ⟨j, Nat.lt_trans hj hk⟩).1) :=
  nearest_color_first_minimizer 10 20 30 PALETTE 0x1 (by decide)

/-- Nibble extraction table for 4-bit codes. -/
lemma nibbleTable : ∀ c1 < 16, ∀ c2 < 16,
    ((c1 <<< 4) ||| c2) >>> 4 = c1 ∧ ((c1 <<< 4) ||| c2) &&& 15 = c2 := by decide

/-- Masking the high nibble of a packed byte recovers the shifted code. -/
lemma maskTable : ∀ c1 < 16, ∀ d < 16, ((c1 <<< 4) ||| d) &&& 240 = c1 <<< 4 := by
  decide

/-- A low-nibble mask always produces a 4-bit value. -/
lemma and15_lt (b : Nat) : b &&& 15 < 16 :=
  Nat.lt_succ_of_le Nat.and_le_right

/-- The read-modify-write pair of variant 2 produces the same byte as variant
1's single write, whatever the byte's previous content. -/
lemma pack2_merge (c1 c2 b0 : Nat) (h1 : c1 < 16) :
    ((((c1 <<< 4) ||| (b0 &&& 15)) &&& 240) ||| c2) = (c1 <<< 4) ||| c2 := by
  rw [maskTable c1 h1 (b0 &&& 15) (and15_lt b0)]

/-- Splitting the strided column range at its last element. -/
lemma range'_two_concat (m : Nat) :
    List.range' 0 (m + 1) 2 = List.range' 0 m 2 ++ [2 * m] := by
  have h : List.range' 0 (m + 1) 2 = List.range' 0 m 2 ++ [0 + 2 * m] :=
    List.range'_concat ..
  simpa using h

/-- The even-column list of an even width. -/
lemma evenCols_even (w : Nat) (hw : w % 2 = 0) :
    evenCols w = List.range' 0 (w / 2) 2 := by
  rw [evenCols]
  congr 1
  omega

/-- For an even width, `w*h/2` bytes are exactly `h` blocks of `w/2`. -/
lemma even_mul_div2 (w h : Nat) (hw : w % 2 = 0) : w * h / 2 = (w / 2) * h := by
  obtain ⟨u, hu⟩ : ∃ u, w = 2 * u := ⟨w / 2, by omega⟩
  subst hu
  rw [Nat.mul_assoc, Nat.mul_div_cancel_left _ (by norm_num),
    Nat.mul_div_cancel_left _ (by norm_num)]

/-- The pure row loop distributes over column-list concatenation. -/
lemma packRowP_append (w row : Nat) (code : Nat → Nat → Nat) :
    ∀ (l1 l2 buf : List Nat),
      packRowP w row code buf (l1 ++ l2) =
        packRowP w row code (packRowP w row code buf l1) l2 := by
  intro l1
  induction l1 with
  | nil => intro l2 buf; rfl
  | cons c rest ih =>
    intro l2 buf
    rw [List.cons_append]
    exact ih l2 _

/-- The pure row loop preserves the buffer length. -/
lemma packRowP_length (w row : Nat) (code : Nat → Nat → Nat) :
    ∀ (cols buf : List Nat), (packRowP w row code buf cols).length = buf.length := by
  intro cols
  induction cols with
  | nil => intro buf; rfl
  | cons c rest ih =>
    intro buf
    rw [packRowP, ih]
    exact List.length_set ..

/-- Bytes outside a row's block are untouched by that row's pure loop. -/
lemma packRowP_unch (w row : Nat) (code : Nat → Nat → Nat) :
    ∀ (m : Nat) (buf : List Nat) (j : Nat),
      (j < row * (w / 2) ∨ row * (w / 2) + m ≤ j) →
      (packRowP w row code buf (List.range' 0 m 2))[j]? = buf[j]? := by
  intro m
  induction m with
  | zero => intro buf j _; rfl
  | succ m ih =>
    intro buf j hj
    rw [range'_two_concat, packRowP_append]
    rw [show packRowP w row code (packRowP w row code buf (List.range' 0 m 2)) [2 * m]
        = (packRowP w row code buf (List.range' 0 m 2)).set
            (row * (w / 2) + 2 * m / 2)
            ((code (2 * m) row <<< 4) ||| code (2 * m + 1) row) from rfl]
    have h2 : 2 * m / 2 = m := by omega
    rw [h2, List.getElem?_set_ne (by omega)]
    exact ih buf j (by omega)

/-- After the pure row loop over the first `m` column pairs, byte `k < m` of
the row's block holds `(code(2k) << 4) | code(2k+1)`. -/
lemma packRowP_val (w row : Nat) (code : Nat → Nat → Nat) :
    ∀ (m : Nat) (buf : List Nat) (k : Nat), k < m →
      row * (w / 2) + k < buf.length →
      (packRowP w row code buf (List.range' 0 m 2))[row * (w / 2) + k]? =
        some ((code (2 * k) row <<< 4) ||| code (2 * k + 1) row) := by
  intro m
  induction m with
  | zero => intro buf k hk; exact absurd hk (Nat.not_lt_zero k)
  | succ m ih =>
    intro buf k hk hlen
    rw [range'_two_concat, packRowP_append]
    rw [show packRowP w row code (packRowP w row code buf (List.range' 0 m 2)) [2 * m]
        = (packRowP w row code buf (List.range' 0 m 2)).set
            (row * (w / 2) + 2 * m / 2)
            ((code (2 * m) row <<< 4) ||| code (2 * m + 1) row) from rfl]
    have h2 : 2 * m / 2 = m := by omega
    rw [h2]
    by_cases hkm : k = m
    · subst hkm
      have hl : row * (w / 2) + k < (packRowP w row code buf (List.range' 0 k 2)).length := by
        rw [packRowP_length]
        exact hlen
      rw [List.getElem?_set_eq_of_lt _ hl]
    · rw [List.getElem?_set_ne (by omega)]
      exact ih buf k (by omega) hlen

/-- The row iterator distributes over row-list concatenation. -/
lemma rowsIter_append (rowFn : Nat → List Nat → List Nat) :
    ∀ (l1 l2 buf : List Nat),
      rowsIter rowFn buf (l1 ++ l2) = rowsIter rowFn (rowsIter rowFn buf l1) l2 := by
  intro l1
  induction l1 with
  | nil => intro l2 buf; rfl
  | cons r rest ih =>
    intro l2 buf
    rw [List.cons_append]
    exact ih l2 _

/-- The row iterator preserves the buffer length when every row step does. -/
lemma rowsIter_length (rowFn : Nat → List Nat → List Nat)
    (hlen : ∀ r buf, (rowFn r buf).length = buf.length) :
    ∀ (rows buf : List Nat), (rowsIter rowFn buf rows).length = buf.length := by
  intro rows
  induction rows with
  | nil => intro buf; rfl
  | cons r rest ih =>
    intro buf
    rw [rowsIter, ih, hlen]

/-- Generic correctness of a row-major packer: if every row step preserves
length, leaves other rows' blocks untouched and fills its own block with
`val`, then after iterating rows `0..n-1` byte `k` of row `r`'s block holds
`val r k`. -/
lemma rowsIter_getElem? (rowFn : Nat → List Nat → List Nat) (W2 : Nat)
    (val : Nat → Nat → Nat)
    (hlen : ∀ r buf, (rowFn r buf).length = buf.length)
    (hunch : ∀ r buf j, (j < r * W2 ∨ r * W2 + W2 ≤ j) → (rowFn r buf)[j]? = buf[j]?)
    (hval : ∀ r buf k, k < W2 → r * W2 + k < buf.length →
      (rowFn r buf)[r * W2 + k]? = some (val r k)) :
    ∀ (n : Nat) (buf : List Nat) (r k : Nat), r < n → k < W2 →
      r * W2 + k < buf.length →
      (rowsIter rowFn buf (List.range n))[r * W2 + k]? = some (val r k) := by
  intro n
  induction n with
  | zero => intro buf r k hr; exact absurd hr (Nat.not_lt_zero r)
  | succ n ih =>
    intro buf r k hr hk hlen2
    rw [List.range_succ, rowsIter_append]
    rw [show rowsIter rowFn (rowsIter rowFn buf (List.range n)) [n]
        = rowFn n (rowsIter rowFn buf (List.range n)) from rfl]
    by_cases hrn : r = n
    · subst hrn
      refine hval r _ k hk ?_
      rw [rowsIter_length rowFn hlen]
      exact hlen2
    · have hblock : r * W2 + k < n * W2 := by
        calc r * W2 + k < r * W2 + W2 := by omega
        _ = (r + 1) * W2 := by ring
        _ ≤ n * W2 := Nat.mul_le_mul_right _ (by omega)
      rw [hunch n _ (r * W2 + k) (Or.inl hblock)]
      exact ih buf r k (by omega) hk hlen2

/-- Variant 1's pure packing strategy yields exactly `w*h/2` bytes. -/
lemma pack1_length (w h : Nat) (code : Nat → Nat → Nat) :
    (pack1 w h code).length = w * h / 2 := by
  rw [pack1, rowsIter_length]
  · exact List.length_replicate ..
  · intro r buf
    exact packRowP_length ..

/-- Per-byte characterization of variant 1's packing strategy for even
width. -/
lemma pack1_getElem? (w h : Nat) (code : Nat → Nat → Nat) (hw : w % 2 = 0)
    (r k : Nat) (hr : r < h) (hk : k < w / 2) :
    (pack1 w h code)[r * (w / 2) + k]? =
      some ((code (2 * k) r <<< 4) ||| code (2 * k + 1) r) := by
  rw [pack1]
  refine rowsIter_getElem? _ (w / 2)
    (fun r k => (code (2 * k) r <<< 4) ||| code (2 * k + 1) r)
    ?_ ?_ ?_ h _ r k hr hk ?_
  · intro r' buf
    exact packRowP_length ..
  · intro r' buf j hj
    rw [evenCols_even w hw]
    exact packRowP_unch w r' code (w / 2) buf j hj
  · intro r' buf k' hk' hl
    rw [evenCols_even w hw]
    exact packRowP_val w r' code (w / 2) buf k' hk' hl
  · rw [List.length_replicate, even_mul_div2 w h hw]
    calc r * (w / 2) + k < r * (w / 2) + w / 2 := by omega
    _ = (r + 1) * (w / 2) := by ring
    _ ≤ h * (w / 2) := Nat.mul_le_mul_right _ (by omega)
    _ = (w / 2) * h := Nat.mul_comm ..

/-- Unfolding variant 2's step at an even column: write the shifted code into
the high nibble, keeping the current low nibble. -/
lemma pack2Step_even (w y : Nat) (code : Nat → Nat → Nat) (buf : List Nat)
    (x : Nat) (hx : x % 2 = 0) :
    pack2Step w y code buf x =
      buf.set (y * (w / 2) + x / 2)
        ((code x y <<< 4) ||| (buf.getD (y * (w / 2) + x / 2) 0 &&& 15)) := by
  rw [pack2Step]
  simp [hx]

/-- Unfolding variant 2's step at an odd column: write the code into the low
nibble, keeping the current high nibble. -/
lemma pack2Step_odd (w y : Nat) (code : Nat → Nat → Nat) (buf : List Nat)
    (x : Nat) (hx : x % 2 = 1) :
    pack2Step w y code buf x =
      buf.set (y * (w / 2) + x / 2)
        ((buf.getD (y * (w / 2) + x / 2) 0 &&& 240) ||| code x y) := by
  rw [pack2Step]
  simp [hx]

/-- Variant 2's step preserves the buffer length. -/
lemma pack2Step_length (w y : Nat) (code : Nat → Nat → Nat) (buf : List Nat)
    (x : Nat) : (pack2Step w y code buf x).length = buf.length := by
  by_cases hx : x % 2 = 0
  · rw [pack2Step_even w y code buf x hx]
    exact List.length_set ..
  · rw [pack2Step_odd w y code buf x (by omega)]
    exact List.length_set ..

/-- Variant 2's row loop distributes over column-list concatenation. -/
lemma packRowP2_append (w y : Nat) (code : Nat → Nat → Nat) :
    ∀ (l1 l2 buf : List Nat),
      packRowP2 w y code buf (l1 ++ l2) =
        packRowP2 w y code (packRowP2 w y code buf l1) l2 := by
  intro l1
  induction l1 with
  | nil => intro l2 buf; rfl
  | cons x rest ih =>
    intro l2 buf
    rw [List.cons_append]
    exact ih l2 _

/-- Variant 2's row loop preserves the buffer length. -/
lemma packRowP2_length (w y : Nat) (code : Nat → Nat → Nat) :
    ∀ (cols buf : List Nat), (packRowP2 w y code buf cols).length = buf.length := by
  intro cols
  induction cols with
  | nil => intro buf; rfl
  | cons x rest ih =>
    intro buf
    rw [packRowP2, ih, pack2Step_length]

/-- Splitting the column range of a row into its first `2m` columns and the
final even/odd pair. -/
lemma range_double_succ (m : Nat) :
    List.range (2 * (m + 1)) = (List.range (2 * m) ++ [2 * m]) ++ [2 * m + 1] := by
  rw [show 2 * (m + 1) = (2 * m + 1) + 1 by ring, List.range_succ, List.range_succ]

/-- Bytes outside a row's block are untouched by variant 2's row loop. -/
lemma packRowP2_unch (w y : Nat) (code : Nat → Nat → Nat) :
    ∀ (m : Nat) (buf : List Nat) (j : Nat),
      (j < y * (w / 2) ∨ y * (w / 2) + m ≤ j) →
      (packRowP2 w y code buf (List.range (2 * m)))[j]? = buf[j]? := by
  intro m
  induction m with
  | zero => intro buf j _; rfl
  | succ m ih =>
    intro buf j hj
    rw [range_double_succ, packRowP2_append, packRowP2_append]
    rw [show packRowP2 w y code (packRowP2 w y code buf (List.range (2 * m))) [2 * m]
        = pack2Step w y code (packRowP2 w y code buf (List.range (2 * m))) (2 * m) from rfl]
    rw [show packRowP2 w y code
          (pack2Step w y code (packRowP2 w y code buf (List.range (2 * m))) (2 * m)) [2 * m + 1]
        = pack2Step w y code
            (pack2Step w y code (packRowP2 w y code buf (List.range (2 * m))) (2 * m))
            (2 * m + 1) from rfl]
    rw [pack2Step_even w y code _ (2 * m) (by omega),
      pack2Step_odd w y code _ (2 * m + 1) (by omega)]
    have h2 : 2 * m / 2 = m := by omega
    have h3 : (2 * m + 1) / 2 = m := by omega
    rw [h2, h3, List.getElem?_set_ne (by omega), List.getElem?_set_ne (by omega)]
    exact ih buf j (by omega)

/-- After variant 2's row loop over the first `2m` columns, byte `k < m` of the
row's block holds the fully merged `(code(2k) << 4) | code(2k+1)`, for 4-bit
codes.  The byte's initial content is irrelevant: the odd-column write masks
away whatever the low nibble held. -/
lemma packRowP2_val (w y : Nat) (code : Nat → Nat → Nat)
    (hc : ∀ x, code x y < 16) :
    ∀ (m : Nat) (buf : List Nat) (k : Nat), k < m →
      y * (w / 2) + k < buf.length →
      (packRowP2 w y code buf (List.range (2 * m)))[y * (w / 2) + k]? =
        some ((code (2 * k) y <<< 4) ||| code (2 * k + 1) y) := by
  intro m
  induction m with
  | zero => intro buf k hk; exact absurd hk (Nat.not_lt_zero k)
  | succ m ih =>
    intro buf k hk hlen
    rw [range_double_succ, packRowP2_append, packRowP2_append]
    rw [show packRowP2 w y code (packRowP2 w y code buf (List.range (2 * m))) [2 * m]
        = pack2Step w y code (packRowP2 w y code buf (List.range (2 * m))) (2 * m) from rfl]
    rw [show packRowP2 w y code
          (pack2Step w y code (packRowP2 w y code buf (List.range (2 * m))) (2 * m)) [2 * m + 1]
        = pack2Step w y code
            (pack2Step w y code (packRowP2 w y code buf (List.range (2 * m))) (2 * m))
            (2 * m + 1) from rfl]
    rw [pack2Step_even w y code _ (2 * m) (by omega)]
    have h2 : 2 * m / 2 = m := by omega
    rw [h2]
    set A := packRowP2 w y code buf (List.range (2 * m)) with hA
    have hAlen : A.length = buf.length := packRowP2_length ..
    rw [pack2Step_odd w y code _ (2 * m + 1) (by omega)]
    have h3 : (2 * m + 1) / 2 = m := by omega
    rw [h3]
    by_cases hkm : k = m
    · subst hkm
      have hi : y * (w / 2) + k < A.length := by rw [hAlen]; exact hlen
      have hgetD :
          (A.set (y * (w / 2) + k)
              ((code (2 * k) y <<< 4) ||| (A.getD (y * (w / 2) + k) 0 &&& 15))).getD
            (y * (w / 2) + k) 0
          = (code (2 * k) y <<< 4) ||| (A.getD (y * (w / 2) + k) 0 &&& 15) := by
        rw [List.getD_eq_getElem?_getD, List.getElem?_set_eq_of_lt _ hi]
        rfl
      rw [hgetD]
      rw [pack2_merge _ _ _ (hc (2 * k))]
      have hi2 : y * (w / 2) + k <
          (A.set (y * (w / 2) + k)
            ((code (2 * k) y <<< 4) ||| (A.getD (y * (w / 2) + k) 0 &&& 15))).length := by
        rw [List.length_set, hAlen]
        exact hlen
      rw [List.getElem?_set_eq_of_lt _ hi2]
    · rw [List.getElem?_set_ne (by omega), List.getElem?_set_ne (by omega)]
      exact ih buf k (by omega) hlen

/-- Variant 2's packing strategy yields exactly `w*h/2` bytes. -/
lemma pack2_length (w h : Nat) (code : Nat → Nat → Nat) :
    (pack2 w h code).length = w * h / 2 := by
  rw [pack2, rowsIter_length]
  · exact List.length_replicate ..
  · intro r buf
    exact packRowP2_length ..

/-- Per-byte characterization of variant 2's packing strategy for even width
and 4-bit codes. -/
lemma pack2_getElem? (w h : Nat) (code : Nat → Nat → Nat) (hw : w % 2 = 0)
    (hc : ∀ x y, code x y < 16) (r k : Nat) (hr : r < h) (hk : k < w / 2) :
    (pack2 w h code)[r * (w / 2) + k]? =
      some ((code (2 * k) r <<< 4) ||| code (2 * k + 1) r) := by
  rw [pack2]
  refine rowsIter_getElem? _ (w / 2)
    (fun r k => (code (2 * k) r <<< 4) ||| code (2 * k + 1) r)
    ?_ ?_ ?_ h _ r k hr hk ?_
  · intro r' buf
    exact packRowP2_length ..
  · intro r' buf j hj
    rw [show List.range w = List.range (2 * (w / 2)) from by congr 1; omega]
    exact packRowP2_unch w r' code (w / 2) buf j hj
  · intro r' buf k' hk' hl
    rw [show List.range w = List.range (2 * (w / 2)) from by congr 1; omega]
    exact packRowP2_val w r' code (fun x => hc x r') (w / 2) buf k' hk' hl
  · rw [List.length_replicate, even_mul_div2 w h hw]
    calc r * (w / 2) + k < r * (w / 2) + w / 2 := by omega
    _ = (r + 1) * (w / 2) := by ring
    _ ≤ h * (w / 2) := Nat.mul_le_mul_right _ (by omega)
    _ = (w / 2) * h := Nat.mul_comm ..

/-- C10: for every even width, every height and every assignment of 4-bit
codes to pixels, variant 2's packing strategy (zero-filled buffer, per pixel
in row-major order merge the code into the high or low nibble of
`buffer[y*(w/2) + x/2]` with a read-modify-write) produces exactly the same
byte buffer as variant 1's strategy of writing each byte once as
`(code(2k) << 4) | code(2k+1)`. -/
theorem pack_read_modify_write_agrees (w h : Nat) (code : Nat → Nat → Nat)
    (hw : w % 2 = 0) (hc : ∀ x y, code x y < 16) :
    pack2 w h code = pack1 w h code := by
  apply List.ext_getElem?
  intro i
  by_cases hi : i < w * h / 2
  · have hw2 : 0 < w / 2 := by
      rcases Nat.eq_zero_or_pos (w / 2) with h0 | h0
      · exfalso
        have hw0 : w = 0 := by omega
        subst hw0
        simp at hi
      · exact h0
    have hik : i = (i / (w / 2)) * (w / 2) + i % (w / 2) := by
      rw [Nat.mul_comm]
      exact (Nat.div_add_mod i (w / 2)).symm
    have hr : i / (w / 2) < h := by
      refine Nat.div_lt_of_lt_mul ?_
      calc i < w * h / 2 := hi
      _ = (w / 2) * h := even_mul_div2 w h hw
    have hk : i % (w / 2) < w / 2 := Nat.mod_lt _ hw2
    rw [hik, pack1_getElem? w h code hw _ _ hr hk,
      pack2_getElem? w h code hw hc _ _ hr hk]
  · rw [List.getElem?_eq_none (by rw [pack2_length]; omega),
      List.getElem?_eq_none (by rw [pack1_length]; omega)]

/-- Witness for C10: both strategies on a concrete 2x1 frame with constant
code 3. -/
theorem pack_read_modify_write_agrees_witness :
    pack2 2 1 (fun _ _ => 3) = pack1 2 1 (fun _ _ => 3) :=
  pack_read_modify_write_agrees 2 1 (fun _ _ => 3) (by decide)
    (by intro x y; show (3 : Nat) < 16; decide)

/-- An in-bounds pixel read succeeds. -/
lemma getpixel_ok (img : Img) (x y : Nat) (hx : x < img.width)
    (hy : y < img.height) : getpixel img x y = .ok (img.data x y) := by
  rw [getpixel, if_pos ⟨hx, hy⟩]

/-- A read beyond the image width fails. -/
lemma getpixel_oob (img : Img) (x y : Nat) (hx : img.width ≤ x) :
    getpixel img x y = .error .pixelOutOfBounds := by
  rw [getpixel, if_neg]
  rintro ⟨h1, -⟩
  omega

/-- When every column pair of the list is in bounds, variant 1's fallible row
loop computes exactly the pure row loop over the image's codes. -/
lemma packRowE_ok (img : Img) (w row : Nat) (hrow : row < img.height) :
    ∀ (cols buf : List Nat), (∀ c ∈ cols, c + 1 < img.width) →
      packRowE img w row buf cols = .ok (packRowP w row (imgCode img) buf cols) := by
  intro cols
  induction cols with
  | nil => intro buf _; rfl
  | cons c rest ih =>
    intro buf hc
    have h2 : c + 1 < img.width := hc c (List.mem_cons_self ..)
    rw [packRowE, getpixel_ok img c row (by omega) hrow,
      getpixel_ok img (c + 1) row h2 hrow]
    exact ih _ (fun c' hc' => hc c' (List.mem_cons_of_mem _ hc'))

/-- When every row and every column pair is in bounds, variant 1's fallible
packer computes exactly the pure strategy `pack1`-style iteration. -/
lemma packRowsE_ok (img : Img) (w : Nat)
    (hcols : ∀ c ∈ evenCols w, c + 1 < img.width) :
    ∀ (rows buf : List Nat), (∀ r ∈ rows, r < img.height) →
      packRowsE img w buf rows =
        .ok (rowsIter (fun row buf => packRowP w row (imgCode img) buf (evenCols w))
          buf rows) := by
  intro rows
  induction rows with
  | nil => intro buf _; rfl
  | cons r rest ih =>
    intro buf hr
    rw [packRowsE, packRowE_ok img w r (hr r (List.mem_cons_self ..)) (evenCols w) buf hcols]
    exact ih _ (fun r' h' => hr r' (List.mem_cons_of_mem _ h'))

/-- For an image of even width `w` and height `h`, the packer succeeds and
returns the pure packing of the image's palette codes. -/
lemma epdPackStage_ok (img : Img) (w h : Nat) (hw : img.width = w)
    (hh : img.height = h) (he : w % 2 = 0) :
    epdPackStage img w h = .ok (pack1 w h (imgCode img)) := by
  rw [epdPackStage, pack1]
  refine packRowsE_ok img w ?_ (List.range h) _ ?_
  · intro c hc
    rw [evenCols] at hc
    obtain ⟨i, hi, hc'⟩ := List.mem_range'.1 hc
    subst hc'
    rw [hw]
    omega
  · intro r hr
    rw [hh]
    exact List.mem_range.1 hr

/-- C1: for every quantized raster of even width `w` and height `h`, the
packer succeeds and places the code of the pixel at column `2k`, row `r` in
the high nibble and the code of the pixel at column `2k+1`, row `r` in the
low nibble of the byte at index `r*(w/2) + k`, i.e.
`byte = (code(pixel[2k]) << 4) | code(pixel[2k+1])`, rows processed top to
bottom and column pairs left to right (the loop structure of
`epdPackStage`). -/
theorem packer_places_codes (img : Img) (w h : Nat) (hw : img.width = w)
    (hh : img.height = h) (he : w % 2 = 0) (r k : Nat) (hr : r < h)
    (hk : k < w / 2) :
    ∃ buf, epdPackStage img w h = .ok buf ∧
      buf[r * (w / 2) + k]? =
        some ((imgCode img (2 * k) r <<< 4) ||| imgCode img (2 * k + 1) r) :=
  ⟨pack1 w h (imgCode img), epdPackStage_ok img w h hw hh he,
    pack1_getElem? w h (imgCode img) he r k hr hk⟩

/-- Witness for C1: the packer applied to the all-black 800x480 raster, byte
0. -/
theorem packer_places_codes_witness :
    ∃ buf, epdPackStage imgLandscape 800 480 = .ok buf ∧
      buf[0 * (800 / 2) + 0]? =
        some ((imgCode imgLandscape 0 0 <<< 4) ||| imgCode imgLandscape 1 0) :=
  packer_places_codes imgLandscape 800 480 rfl rfl (by decide) 0 0 (by decide)
    (by decide)

/-- Splitting the even-column list of an odd width at its out-of-range last
pair. -/
lemma evenCols_odd_split (w : Nat) (hw : w % 2 = 1) :
    evenCols w = List.range' 0 (w / 2) 2 ++ [w - 1] := by
  rw [evenCols]
  have h1 : (w + 1) / 2 = w / 2 + 1 := by omega
  rw [h1, range'_two_concat]
  have h2 : 2 * (w / 2) = w - 1 := by omega
  rw [h2]

/-- If the final column of the list reads its right-hand partner out of
bounds, the whole row loop fails, discarding the buffer. -/
lemma packRowE_err (img : Img) (w row : Nat) (hrow : row < img.height)
    (cl : Nat) (hcl : cl < img.width) (hcl2 : img.width ≤ cl + 1) :
    ∀ (cols buf : List Nat), (∀ c ∈ cols, c + 1 < img.width) →
      packRowE img w row buf (cols ++ [cl]) = .error .pixelOutOfBounds := by
  intro cols
  induction cols with
  | nil =>
    intro buf _
    rw [List.nil_append, packRowE, getpixel_ok img cl row hcl hrow,
      getpixel_oob img (cl + 1) row hcl2]
  | cons c rest ih =>
    intro buf hc
    have h2 : c + 1 < img.width := hc c (List.mem_cons_self ..)
    rw [List.cons_append, packRowE, getpixel_ok img c row (by omega) hrow,
      getpixel_ok img (c + 1) row h2 hrow]
    exact ih _ (fun c' hc' => hc c' (List.mem_cons_of_mem _ hc'))

/-- C8 (amended): for every call to the packer with an odd width, the call
fails — with an out-of-bounds pixel read on the last column pair of the first
row, since the code contains no odd-width configuration check — and no
partial byte buffer is returned; the packer never succeeds for odd width. -/
theorem packer_odd_width_fails (img : Img) (w h : Nat) (hw : img.width = w)
    (hh : img.height = h) (hodd : w % 2 = 1) (hpos : 0 < h) :
    epdPackStage img w h = .error .pixelOutOfBounds := by
  obtain ⟨m, rfl⟩ : ∃ m, h = m + 1 := ⟨h - 1, by omega⟩
  rw [epdPackStage, List.range_succ_eq_map, packRowsE, evenCols_odd_split w hodd]
  rw [packRowE_err img w 0 (by omega) (w - 1) (by omega) (by omega) _ _ ?_]
  · intro c hc
    obtain ⟨i, hi, hc'⟩ := List.mem_range'.1 hc
    subst hc'
    rw [hw]
    omega

/-- Witness for C8's amended theorem: the packer on a concrete 3x1 raster. -/
theorem packer_odd_width_fails_witness :
    epdPackStage imgOdd3 3 1 = .error .pixelOutOfBounds :=
  packer_odd_width_fails imgOdd3 3 1 rfl rfl (by decide) (by decide)

/-- Counterexample for C8 as stated: on the odd-width 3x1 input the packer
fails with an out-of-bounds pixel read, not with the `ConfigurationError`
the claim names — the code has no odd-width configuration check at all. -/
theorem packer_odd_width_not_config_error :
    epdPackStage imgOdd3 3 1 ≠ .error .configurationError := by
  intro hcontra
  rw [show epdPackStage imgOdd3 3 1 = .error .pixelOutOfBounds from rfl] at hcontra
  exact ConvErr.noConfusion (Except.error.inj hcontra)

/-- Pillow's rounded aspect dimension is at least 1. -/
lemma roundAspect_pos (number : ℚ) (key : ℤ → ℚ) : 0 < roundAspect number key := by
  rw [roundAspect]
  have h1 : (1 : ℤ) ≤ max (if key ⌊number⌋ ≤ key ⌈number⌉ then ⌊number⌋ else ⌈number⌉) 1 :=
    le_max_right _ 1
  omega

/-- Pillow's rounded aspect dimension never exceeds an integer bound at least
as large as the exact value. -/
lemma roundAspect_le (number : ℚ) (key : ℤ → ℚ) (bound : Nat)
    (hb : 0 < bound) (hn : number ≤ (bound : ℚ)) : roundAspect number key ≤ bound := by
  rw [roundAspect]
  have hc : ⌈number⌉ ≤ (bound : ℤ) := Int.ceil_le.2 (by exact_mod_cast hn)
  have hf : ⌊number⌋ ≤ (bound : ℤ) := le_trans (Int.floor_le_ceil number) hc
  have hm : (if key ⌊number⌋ ≤ key ⌈number⌉ then ⌊number⌋ else ⌈number⌉) ≤ (bound : ℤ) := by
    split
    · exact hf
    · exact hc
  have hb' : (1 : ℤ) ≤ (bound : ℤ) := by exact_mod_cast hb
  have h3 : max (if key ⌊number⌋ ≤ key ⌈number⌉ then ⌊number⌋ else ⌈number⌉) 1 ≤ (bound : ℤ) :=
    max_le hm hb'
  omega

/-- The thumbnail target dimensions fit inside the bounding box. -/
lemma thumbDims_le (w h tw th : Nat) (htw : 0 < tw) (hth : 0 < th) :
    (thumbDims w h tw th).1 ≤ tw ∧ (thumbDims w h tw th).2 ≤ th := by
  rw [thumbDims]
  split_ifs with hcase
  · refine ⟨?_, le_refl th⟩
    apply roundAspect_le ((th : ℚ) * ((w : ℚ) / (h : ℚ)))
      (fun n => |(w : ℚ) / (h : ℚ) - (n : ℚ) / (th : ℚ)|) tw htw
    have hth' : (0 : ℚ) < (th : ℚ) := by exact_mod_cast hth
    calc (th : ℚ) * ((w : ℚ) / (h : ℚ))
        ≤ (th : ℚ) * ((tw : ℚ) / (th : ℚ)) :=
          mul_le_mul_of_nonneg_left hcase (le_of_lt hth')
    _ = (tw : ℚ) := by field_simp
  · refine ⟨le_refl tw, ?_⟩
    apply roundAspect_le ((tw : ℚ) / ((w : ℚ) / (h : ℚ)))
      (fun n => if n = 0 then 0 else |(w : ℚ) / (h : ℚ) - (tw : ℚ) / (n : ℚ)|) th hth
    push_neg at hcase
    have h1 : (0 : ℚ) ≤ (tw : ℚ) / (th : ℚ) :=
      div_nonneg (by positivity) (by positivity)
    have haspect : (0 : ℚ) < (w : ℚ) / (h : ℚ) := lt_of_le_of_lt h1 hcase
    have hth' : (0 : ℚ) < (th : ℚ) := by exact_mod_cast hth
    rw [div_le_iff₀ haspect]
    have h2 : (tw : ℚ) < (w : ℚ) / (h : ℚ) * (th : ℚ) := (div_lt_iff₀ hth').1 hcase
    linarith

/-- The thumbnail target dimensions are positive for a positive bounding
box. -/
lemma thumbDims_pos (w h tw th : Nat) (htw : 0 < tw) (hth : 0 < th) :
    0 < (thumbDims w h tw th).1 ∧ 0 < (thumbDims w h tw th).2 := by
  rw [thumbDims]
  split_ifs with hcase
  · exact ⟨roundAspect_pos ((th : ℚ) * ((w : ℚ) / (h : ℚ)))
      (fun n => |(w : ℚ) / (h : ℚ) - (n : ℚ) / (th : ℚ)|), hth⟩
  · exact ⟨htw, roundAspect_pos ((tw : ℚ) / ((w : ℚ) / (h : ℚ)))
      (fun n => if n = 0 then 0 else |(w : ℚ) / (h : ℚ) - (tw : ℚ) / (n : ℚ)|)⟩

/-- A raster with positive dimensions thumbnails successfully, with positive
result dimensions. -/
lemma thumbnailM_ok_pos (o : Oracle) (img : Img) (tw th : Nat) (htw : 0 < tw)
    (hth : 0 < th) (hw : 0 < img.width) (hh : 0 < img.height) :
    ∃ timg, thumbnailM o img tw th = .ok timg ∧ 0 < timg.width ∧ 0 < timg.height := by
  rw [thumbnailM]
  by_cases hg : img.width ≤ tw ∧ img.height ≤ th
  · rw [if_pos hg]
    exact ⟨img, rfl, hw, hh⟩
  · rw [if_neg hg, if_neg (by omega : ¬img.height = 0)]
    by_cases heq : (thumbDims img.width img.height tw th).1 = img.width ∧
        (thumbDims img.width img.height tw th).2 = img.height
    · rw [if_pos heq]
      exact ⟨img, rfl, hw, hh⟩
    · rw [if_neg heq]
      exact ⟨_, rfl, (thumbDims_pos _ _ tw th htw hth).1,
        (thumbDims_pos _ _ tw th htw hth).2⟩

/-- Whenever the thumbnail succeeds, its result fits the bounding box. -/
lemma thumbnailM_ok_le (o : Oracle) (img : Img) (tw th : Nat) (htw : 0 < tw)
    (hth : 0 < th) (timg : Img) (h : thumbnailM o img tw th = .ok timg) :
    timg.width ≤ tw ∧ timg.height ≤ th := by
  rw [thumbnailM] at h
  by_cases hg : img.width ≤ tw ∧ img.height ≤ th
  · rw [if_pos hg] at h
    cases h
    exact hg
  · rw [if_neg hg] at h
    by_cases h0 : img.height = 0
    · rw [if_pos h0] at h
      cases h
    · rw [if_neg h0] at h
      by_cases heq : (thumbDims img.width img.height tw th).1 = img.width ∧
          (thumbDims img.width img.height tw th).2 = img.height
      · rw [if_pos heq] at h
        cases h
        have hle := thumbDims_le img.width img.height tw th htw hth
        obtain ⟨he1, he2⟩ := heq
        omega
      · rw [if_neg heq] at h
        cases h
        exact thumbDims_le _ _ tw th htw hth

/-- The orientation fix preserves positivity of both dimensions. -/
lemma autoRotate_pos (img : Img) (hw : 0 < img.width) (hh : 0 < img.height) :
    0 < (autoRotate img).width ∧ 0 < (autoRotate img).height := by
  rw [autoRotate]
  split
  · exact ⟨hh, hw⟩
  · exact ⟨hw, hh⟩

/-- The pre-downscale of a positive raster succeeds with positive result
dimensions. -/
lemma preScale_ok_pos (o : Oracle) (img : Img) (hw : 0 < img.width)
    (hh : 0 < img.height) :
    ∃ img2, preScale o img = .ok img2 ∧ 0 < img2.width ∧ 0 < img2.height := by
  rw [preScale]
  by_cases hbig : 2400 < img.width ∨ 1440 < img.height
  · rw [if_pos hbig]
    exact thumbnailM_ok_pos o img 2400 1440 (by norm_num) (by norm_num) hw hh
  · rw [if_neg hbig]
    exact ⟨img, rfl, hw, hh⟩

/-- Variant 1's geometry normalizer succeeds on every raster with positive
dimensions and returns an exactly 800x480 raster. -/
lemma normalize1_ok (o : Oracle) (img : Img) (hw : 0 < img.width)
    (hh : 0 < img.height) :
    ∃ res, normalize1 o img = .ok res ∧ res.width = 800 ∧ res.height = 480 := by
  rw [normalize1]
  obtain ⟨h1w, h1h⟩ := autoRotate_pos img hw hh
  obtain ⟨img2, hps, h2w, h2h⟩ := preScale_ok_pos o (autoRotate img) h1w h1h
  rw [normAfterRotate, hps]
  dsimp only
  rw [if_neg (by omega), if_neg (by omega)]
  exact ⟨_, rfl, rfl, rfl⟩

/-- Whenever variant 1's normalizer succeeds, the result is exactly
800x480: the PIL crop returns the requested box size unconditionally. -/
lemma normalize1_ok_dims (o : Oracle) (img : Img) (res : Img)
    (h : normalize1 o img = .ok res) : res.width = 800 ∧ res.height = 480 := by
  rw [normalize1, normAfterRotate] at h
  cases hps : preScale o (autoRotate img) with
  | error e => rw [hps] at h; cases h
  | ok img2 =>
    rw [hps] at h
    dsimp only at h
    by_cases h0 : img2.height = 0
    · rw [if_pos h0] at h
      cases h
    · rw [if_neg h0] at h
      by_cases h1 : img2.width = 0
      · rw [if_pos h1] at h
        cases h
      · rw [if_neg h1] at h
        cases h
        exact ⟨rfl, rfl⟩

/-- Whenever variant 2's normalizer succeeds, the result is the 800x480 white
canvas with the thumbnail pasted. -/
lemma normalize2_ok_dims (o : Oracle) (img : Img) (res : Img)
    (h : normalize2 o img = .ok res) : res.width = 800 ∧ res.height = 480 := by
  rw [normalize2] at h
  cases ht : thumbnailM o img 800 480 with
  | error e => rw [ht] at h; cases h
  | ok timg =>
    rw [ht] at h
    dsimp only at h
    cases h
    exact ⟨rfl, rfl⟩

/-- Variant 2's geometry normalizer succeeds on every raster with positive
height. -/
lemma normalize2_ok (o : Oracle) (img : Img) (hh : 0 < img.height) :
    ∃ res, normalize2 o img = .ok res ∧ res.width = 800 ∧ res.height = 480 := by
  rw [normalize2, thumbnailM]
  by_cases hg : img.width ≤ 800 ∧ img.height ≤ 480
  · rw [if_pos hg]
    exact ⟨_, rfl, rfl, rfl⟩
  · rw [if_neg hg, if_neg (by omega : ¬img.height = 0)]
    by_cases heq : (thumbDims img.width img.height 800 480).1 = img.width ∧
        (thumbDims img.width img.height 800 480).2 = img.height
    · rw [if_pos heq]
      exact ⟨_, rfl, rfl, rfl⟩
    · rw [if_neg heq]
      exact ⟨_, rfl, rfl, rfl⟩

/-- The computed resize dimensions dominate the display, and the centered crop
box lies inside the resized image, despite the truncation in the scale
computation. -/
lemma cropGeom_bounds (w h : Nat) (hw : 0 < w) (hh : 0 < h) :
    0 ≤ (cropGeom w h).left ∧ 0 ≤ (cropGeom w h).top ∧
    (cropGeom w h).left + 800 ≤ ((cropGeom w h).newW : ℤ) ∧
    (cropGeom w h).top + 480 ≤ ((cropGeom w h).newH : ℤ) := by
  have hw' : (0 : ℚ) < (w : ℚ) := by exact_mod_cast hw
  have hh' : (0 : ℚ) < (h : ℚ) := by exact_mod_cast hh
  have hmain : 800 ≤ (cropScaled w h).1 ∧ 480 ≤ (cropScaled w h).2 := by
    rw [cropScaled]
    split_ifs with hcase
    · refine ⟨?_, le_refl 480⟩
      have hfloor : (800 : ℤ) ≤ ⌊(480 : ℚ) * ((w : ℚ) / (h : ℚ))⌋ := by
        apply Int.le_floor.2
        push_cast
        nlinarith [hcase]
      omega
    · refine ⟨le_refl 800, ?_⟩
      push_neg at hcase
      have haspect : (0 : ℚ) < (w : ℚ) / (h : ℚ) := div_pos hw' hh'
      have hfloor : (480 : ℤ) ≤ ⌊(800 : ℚ) / ((w : ℚ) / (h : ℚ))⌋ := by
        apply Int.le_floor.2
        push_cast
        rw [le_div_iff₀ haspect]
        nlinarith [hcase]
      omega
  rw [cropGeom]
  obtain ⟨hW, hH⟩ := hmain
  have e1 : Int.fdiv (((cropScaled w h).1 : ℤ) - 800) 2
      = (((cropScaled w h).1 : ℤ) - 800) / 2 := by
    rw [Int.fdiv_eq_ediv]
    omega
  have e2 : Int.fdiv (((cropScaled w h).2 : ℤ) - 480) 2
      = (((cropScaled w h).2 : ℤ) - 480) / 2 := by
    rw [Int.fdiv_eq_ediv]
    omega
  refine ⟨?_, ?_, ?_, ?_⟩ <;> simp only [e1, e2] <;> omega

/-- C5: for every input raster with non-zero area, both the CropFill path
(variant 1's `normalize1`) and the LetterboxFit path (variant 2's
`normalize2`) produce a raster of exactly 800x480; and in the CropFill path
the computed crop box `(left, top, left+800, top+480)` lies entirely within
the resized image for all positive pre-crop dimensions, despite the integer
truncation in the scale computation (exact-rational model of the Python float
arithmetic, faithful on the reachable domain per the header note). -/
theorem normalize_exact_target (o : Oracle) (img : Img) (hw : 0 < img.width)
    (hh : 0 < img.height) :
    (∃ res, normalize1 o img = .ok res ∧ res.width = 800 ∧ res.height = 480) ∧
    (∃ res2, normalize2 o img = .ok res2 ∧ res2.width = 800 ∧ res2.height = 480) ∧
    (∀ w h : Nat, 0 < w → 0 < h →
      0 ≤ (cropGeom w h).left ∧ 0 ≤ (cropGeom w h).top ∧
      (cropGeom w h).left + 800 ≤ ((cropGeom w h).newW : ℤ) ∧
      (cropGeom w h).top + 480 ≤ ((cropGeom w h).newH : ℤ)) :=
  ⟨normalize1_ok o img hw hh, normalize2_ok o img hh,
    fun w h hw' hh' => cropGeom_bounds w h hw' hh'⟩

/-- Witness for C5: both normalizers on the all-black 800x480 raster. -/
theorem normalize_exact_target_witness :
    (∃ res, normalize1 oracle0 imgLandscape = .ok res ∧
      res.width = 800 ∧ res.height = 480) ∧
    (∃ res2, normalize2 oracle0 imgLandscape = .ok res2 ∧
      res2.width = 800 ∧ res2.height = 480) ∧
    (∀ w h : Nat, 0 < w → 0 < h →
      0 ≤ (cropGeom w h).left ∧ 0 ≤ (cropGeom w h).top ∧
      (cropGeom w h).left + 800 ≤ ((cropGeom w h).newW : ℤ) ∧
      (cropGeom w h).top + 480 ≤ ((cropGeom w h).newH : ℤ)) :=
  normalize_exact_target oracle0 imgLandscape (by decide) (by decide)

/-- C2: for every input raster (of any size and aspect ratio), any byte
buffer returned by either conversion pipeline has length exactly
`targetW*targetH/2 = 800*480/2 = 192000`; a failing call returns no buffer at
all, so no shorter or longer buffer is ever returned. -/
theorem frame_size_invariant (o : Oracle) (b : Bool) (img : Img) :
    (convert1 o b img).map List.length = (convert1 o b img).map (fun _ => 192000) ∧
    (convert2 o img).map List.length = (convert2 o img).map (fun _ => 192000) := by
  constructor
  · rw [convert1]
    cases hn : normalize1 o img with
    | error e => rfl
    | ok n =>
      dsimp only
      obtain ⟨hw, hh⟩ := normalize1_ok_dims o img n hn
      have hdw : (if b then ditherM o n else n).width = 800 := by
        cases b <;> simp [ditherM, hw]
      have hdh : (if b then ditherM o n else n).height = 480 := by
        cases b <;> simp [ditherM, hh]
      rw [epdPackStage_ok _ 800 480 hdw hdh (by norm_num)]
      simp [Except.map, pack1_length]
  · rw [convert2]
    cases hn : normalize2 o img with
    | error e => rfl
    | ok canvas =>
      dsimp only
      simp [Except.map, pack2_length]

/-- The set of 4-bit codes defined by variant 1's palette. -/
def paletteCodes : List Nat := PALETTE.map Prod.snd

/-- Boolean check that both nibbles of a byte are palette codes. -/
def nibbleOk (byte : Nat) : Bool :=
  decide ((byte >>> 4) ∈ paletteCodes) && decide ((byte &&& 15) ∈ paletteCodes)

/-- The configured palette codes, concretely. -/
lemma paletteCodes_eq : paletteCodes = [0x0, 0x1, 0x2, 0x3, 0x5, 0x6] := rfl

/-- Pixels quantize to members of the configured palette code set. -/
lemma imgCode_mem (img : Img) (x y : Nat) : imgCode img x y ∈ paletteCodes := by
  rw [paletteCodes_eq, imgCode]
  exact rgb_to_palette_code_mem (img.data x y).r (img.data x y).g (img.data x y).b

/-- Pixel codes are 4-bit values. -/
lemma imgCode_lt16 (img : Img) (x y : Nat) : imgCode img x y < 16 := by
  rw [imgCode]
  exact rgb_to_palette_code_lt16 (img.data x y).r (img.data x y).g (img.data x y).b

/-- C4: for every input raster (and any dithering oracle), every 4-bit nibble
— high and low — of every byte of variant 1's packed output is a code that
the configured 6-color palette defines; and the configured code set
{0x0,0x1,0x2,0x3,0x5,0x6} contains neither 0x4 nor any value in 0x7..0xF, so
no such nibble ever appears in the output. -/
theorem palette_closure (o : Oracle) (b : Bool) (img : Img) :
    (convert1 o b img).map (fun buf => buf.all nibbleOk)
      = (convert1 o b img).map (fun _ => true) ∧
    paletteCodes.all (fun n => !(n == 4 || (decide (7 ≤ n) && decide (n ≤ 15)))) = true := by
  refine ⟨?_, by decide⟩
  rw [convert1]
  cases hn : normalize1 o img with
  | error e => rfl
  | ok n =>
    dsimp only
    obtain ⟨hw, hh⟩ := normalize1_ok_dims o img n hn
    have hdw : (if b then ditherM o n else n).width = 800 := by
      cases b <;> simp [ditherM, hw]
    have hdh : (if b then ditherM o n else n).height = 480 := by
      cases b <;> simp [ditherM, hh]
    rw [epdPackStage_ok _ 800 480 hdw hdh (by norm_num)]
    set d := if b then ditherM o n else n with hd
    have hall : (pack1 800 480 (imgCode d)).all nibbleOk = true := by
      rw [List.all_eq_true]
      intro byte hbyte
      obtain ⟨i, hi⟩ := List.mem_iff_getElem?.1 hbyte
      have hilen : i < (pack1 800 480 (imgCode d)).length := by
        by_contra hno
        rw [List.getElem?_eq_none (by omega)] at hi
        cases hi
      rw [pack1_length] at hilen
      have hik : i = (i / 400) * 400 + i % 400 := by omega
      have hr : i / 400 < 480 := by omega
      have hk : i % 400 < 400 := by omega
      have hval := pack1_getElem? 800 480 (imgCode d) (by norm_num) (i / 400) (i % 400)
        hr (by norm_num; omega)
      rw [show (800 : Nat) / 2 = 400 from rfl, ← hik, hi] at hval
      have hbeq := Option.some.inj hval
      subst hbeq
      have hlt1 := imgCode_lt16 d (2 * (i % 400)) (i / 400)
      have hlt2 := imgCode_lt16 d (2 * (i % 400) + 1) (i / 400)
      obtain ⟨hhi, hlo⟩ := nibbleTable _ hlt1 _ hlt2
      rw [nibbleOk, hhi, hlo]
      simp [imgCode_mem]
    simp [Except.map, hall]

/-- C6 (amended): in variant 1 — the only variant with an orientation-fix
step — every input raster with height strictly greater than width is first
rotated 90 degrees with expanded bounds, and produces byte-for-byte the same
output as the already-landscape input of the rotated content.  (Variant 2
performs no rotation; see the counterexample.) -/
theorem portrait_rotation_variant1 (o : Oracle) (b : Bool) (img : Img)
    (hp : img.width < img.height) :
    normalize1 o img = normAfterRotate o (rotate90 img) ∧
    convert1 o b img = convert1 o b (rotate90 img) := by
  have h1 : autoRotate img = rotate90 img := by rw [autoRotate, if_pos hp]
  have h2 : autoRotate (rotate90 img) = rotate90 img := by
    rw [autoRotate, if_neg]
    show ¬(rotate90 img).width < (rotate90 img).height
    simp only [rotate90]
    omega
  constructor
  · rw [normalize1, h1]
  · rw [convert1, convert1, normalize1, normalize1, h1, h2]

/-- Witness for C6's amended theorem: a 480x800 portrait input to
variant 1. -/
theorem portrait_rotation_variant1_witness :
    normalize1 oracle0 imgPortrait = normAfterRotate oracle0 (rotate90 imgPortrait) ∧
    convert1 oracle0 true imgPortrait = convert1 oracle0 true (rotate90 imgPortrait) :=
  portrait_rotation_variant1 oracle0 true imgPortrait (by decide)

/-- Counterexample for C6 as stated: variant 2's pipeline has no rotation
step.  On the all-black 1x2 portrait raster its output differs from the
output on the rotated 2x1 landscape raster — byte 96199 is 0x10 in one and
0x11 in the other — so the rotation step is not part of every variant's
normalize contract. -/
theorem variant2_does_not_rotate :
    convert2 oracle0 tinyPortrait ≠ convert2 oracle0 (rotate90 tinyPortrait) := by
  intro heq
  rw [show convert2 oracle0 tinyPortrait
      = .ok (pack2 800 480
        (fun x y => find_closest_color ((pasteW tinyPortrait).data x y))) from rfl,
    show convert2 oracle0 (rotate90 tinyPortrait)
      = .ok (pack2 800 480
        (fun x y => find_closest_color ((pasteW (rotate90 tinyPortrait)).data x y))) from rfl]
    at heq
  have hbuf := Except.ok.inj heq
  have h1 := pack2_getElem? 800 480
    (fun x y => find_closest_color ((pasteW tinyPortrait).data x y))
    (by norm_num) (fun x y => find_closest_color_lt16 _) 240 199 (by norm_num) (by norm_num)
  have h2 := pack2_getElem? 800 480
    (fun x y => find_closest_color ((pasteW (rotate90 tinyPortrait)).data x y))
    (by norm_num) (fun x y => find_closest_color_lt16 _) 240 199 (by norm_num) (by norm_num)
  rw [hbuf, h2] at h1
  have hv := Option.some.inj h1
  exact absurd hv (by decide)

/-- Pointwise content of variant 2's pasted canvas. -/
lemma pasteW_data (timg : Img) (x y : Nat) :
    (pasteW timg).data x y =
      if xOff timg ≤ (x : ℤ) ∧ (x : ℤ) < xOff timg + timg.width ∧
         yOff timg ≤ (y : ℤ) ∧ (y : ℤ) < yOff timg + timg.height
      then timg.data ((x : ℤ) - xOff timg).toNat ((y : ℤ) - yOff timg).toNat
      else ⟨255, 255, 255⟩ := rfl

/-- C7: under the LetterboxFit policy (variant 2), the entire post-pre-scale
source content appears in the output raster — every pixel of the thumbnail is
copied unchanged to the canvas at the centering offsets `(800-w)//2`,
`(480-h)//2` — and every canvas pixel outside the pasted rectangle is the
palette's white value (255,255,255). -/
theorem letterbox_preserves_content (o : Oracle) (img timg : Img)
    (ht : thumbnailM o img 800 480 = .ok timg) :
    normalize2 o img = .ok (pasteW timg) ∧
    timg.width ≤ 800 ∧ timg.height ≤ 480 ∧
    xOff timg = Int.fdiv (800 - (timg.width : ℤ)) 2 ∧
    yOff timg = Int.fdiv (480 - (timg.height : ℤ)) 2 ∧
    (∀ x y : Nat, x < timg.width → y < timg.height →
      (pasteW timg).data ((xOff timg).toNat + x) ((yOff timg).toNat + y)
        = timg.data x y) ∧
    (∀ x y : Nat, x < 800 → y < 480 →
      ((x : ℤ) < xOff timg ∨ xOff timg + timg.width ≤ (x : ℤ) ∨
        (y : ℤ) < yOff timg ∨ yOff timg + timg.height ≤ (y : ℤ)) →
      (pasteW timg).data x y = ⟨255, 255, 255⟩) := by
  have hle := thumbnailM_ok_le o img 800 480 (by norm_num) (by norm_num) timg ht
  have hxo : 0 ≤ xOff timg := by
    rw [xOff, Int.fdiv_eq_ediv] <;> omega
  have hyo : 0 ≤ yOff timg := by
    rw [yOff, Int.fdiv_eq_ediv] <;> omega
  refine ⟨?_, hle.1, hle.2, rfl, rfl, ?_, ?_⟩
  · rw [normalize2, ht]
  · intro x y hx hy
    rw [pasteW_data, if_pos]
    · have hA : (((((xOff timg).toNat + x : Nat)) : ℤ) - xOff timg).toNat = x := by
        push_cast
        omega
      have hB : (((((yOff timg).toNat + y : Nat)) : ℤ) - yOff timg).toNat = y := by
        push_cast
        omega
      rw [hA, hB]
    · refine ⟨?_, ?_, ?_, ?_⟩ <;> push_cast <;> omega
  · intro x y hx hy hout
    rw [pasteW_data, if_neg]
    rintro ⟨c1, c2, c3, c4⟩
    rcases hout with h | h | h | h <;> omega

/-- Witness for C7: the 1x2 thumbnail pastes into the white canvas
unchanged. -/
theorem letterbox_preserves_content_witness :
    normalize2 oracle0 tinyPortrait = .ok (pasteW tinyPortrait) ∧
    tinyPortrait.width ≤ 800 ∧ tinyPortrait.height ≤ 480 ∧
    xOff tinyPortrait = Int.fdiv (800 - (tinyPortrait.width : ℤ)) 2 ∧
    yOff tinyPortrait = Int.fdiv (480 - (tinyPortrait.height : ℤ)) 2 ∧
    (∀ x y : Nat, x < tinyPortrait.width → y < tinyPortrait.height →
      (pasteW tinyPortrait).data ((xOff tinyPortrait).toNat + x)
        ((yOff tinyPortrait).toNat + y) = tinyPortrait.data x y) ∧
    (∀ x y : Nat, x < 800 → y < 480 →
      ((x : ℤ) < xOff tinyPortrait ∨
        xOff tinyPortrait + tinyPortrait.width ≤ (x : ℤ) ∨
        (y : ℤ) < yOff tinyPortrait ∨
        yOff tinyPortrait + tinyPortrait.height ≤ (y : ℤ)) →
      (pasteW tinyPortrait).data x y = ⟨255, 255, 255⟩) :=
  letterbox_preserves_content oracle0 tinyPortrait tinyPortrait rfl

/-- C9: both conversion pipelines are deterministic functions of their inputs
(raster, dithering flag, and the oracle standing for the fixed PIL resampling
and dithering routines; the palettes are fixed module constants baked into
the definitions): equal inputs give byte-for-byte equal outputs, with no
hidden state. -/
theorem pipeline_deterministic (o₁ o₂ : Oracle) (b₁ b₂ : Bool) (i₁ i₂ : Img)
    (ho : o₁ = o₂) (hb : b₁ = b₂) (hi : i₁ = i₂) :
    convert1 o₁ b₁ i₁ = convert1 o₂ b₂ i₂ ∧ convert2 o₁ i₁ = convert2 o₂ i₂ := by
  subst ho
  subst hb
  subst hi
  exact ⟨rfl, rfl⟩

/-- Witness for C9: the pipelines at concrete equal inputs. -/
theorem pipeline_deterministic_witness :
    convert1 oracle0 true imgLandscape = convert1 oracle0 true imgLandscape ∧
    convert2 oracle0 imgLandscape = convert2 oracle0 imgLandscape :=
  pipeline_deterministic oracle0 oracle0 true true imgLandscape imgLandscape rfl rfl rfl

end EPaper
